import Mathlib

/-
Verification of the computational core of the mfl_data repository
(src/mfl_market_viewer.py and src/pages/mfl_scouting.py).

The Python code is shallowly embedded: Python floats are modelled as exact
rationals (ℚ), dicts as association lists with first-match lookup, and the
remote HTTP interactions as explicit parameters describing the response the
network would deliver.  `calculate_best_alt_ovr` is textually identical in
the two source files (mfl_market_viewer.py lines 94-128, mfl_scouting.py
lines 38-72), so a single embedding covers both.
-/

set_option autoImplicit false

namespace MflData

/-! ## Basic dictionary model

Python dict lookups `d.get(k, 0)` are modelled over association lists with
the convention that the first matching key wins (a Python dict has unique
keys, so any association list arising from one matches at most once). -/

/-- Python `d.get(k, 0)` for a numeric-valued dict. -/
def dictGetD {κ : Type} [DecidableEq κ] : List (κ × ℚ) → κ → ℚ
  | [], _ => 0
  | (a, v) :: rest, k => if a = k then v else dictGetD rest k

/-- player_stats: the six attribute scores, keyed by attribute code. -/
abbrev Stats := List (String × ℚ)

/-- Per-position attribute weights (one row of weightings_dict). -/
abbrev Weights := List (String × ℚ)

/-- weightings_dict: per-position weights, in dict iteration order. -/
abbrev WeightTable := List (String × Weights)

/-- familiarity_dict: (Primary_position, Assigned_position) → Position_Penalty. -/
abbrev FamTable := List ((String × String) × ℚ)

/-! ## Python round

Python's builtin `round` rounds half to even (banker's rounding); the source
wraps it as `int(round(x))`, which is exact on the integral float `round`
produces. -/

/-- `int(round(q))` with Python's round-half-to-even semantics. -/
def pyRound (q : ℚ) : ℤ :=
  if q - ⌊q⌋ < 1/2 then ⌊q⌋
  else if 1/2 < q - ⌊q⌋ then ⌊q⌋ + 1
  else if ⌊q⌋ % 2 = 0 then ⌊q⌋ else ⌊q⌋ + 1

/-! ## calculate_best_alt_ovr

Embedding of `calculate_best_alt_ovr(player_stats, primary, secondary,
tertiary, overall)`.  `primary`, `secondary`, `tertiary` are `Option String`
because the caller pads the player's position list with `None`
(`(pos_list + [None, None, None])[:3]`); in Python a string `pos` compares
unequal to `None`, so `pos == primary` is `primary = some pos` here.
`overall` is the player's integer overall rating. -/

/-- `sum(player_stats.get(attr, 0) * weights.get(attr, 0) for attr in weights)`.
Iterating the keys of `weights` and looking each key up in `weights` itself
just yields that entry's value, so the sum runs over the entries directly. -/
def weighted_sum (player_stats : Stats) : Weights → ℚ
  | [] => 0
  | (attr, w) :: rest => dictGetD player_stats attr * w + weighted_sum player_stats rest

/-- `familiarity_dict.get((primary, pos), 0)`.  The table's keys are pairs of
strings read from the CSV, so when `primary` is `None` the lookup misses and
the default 0 applies. -/
def famPenalty (fam : FamTable) (primary : Option String) (pos : String) : ℚ :=
  match primary with
  | none => 0
  | some p => dictGetD fam (p, pos)

/-- The penalty chosen for `pos` (source lines 103-108 of the market page). -/
def penalty (fam : FamTable) (primary secondary tertiary : Option String)
    (pos : String) : ℚ :=
  if primary = some pos then 0
  else if secondary = some pos ∨ tertiary = some pos then -1
  else famPenalty fam primary pos

/-- `alt_ovr = max(0, base_ovr + penalty)` with `base_ovr = weighted_sum / 100`. -/
def alt_ovr (fam : FamTable) (player_stats : Stats)
    (primary secondary tertiary : Option String)
    (pos : String) (weights : Weights) : ℚ :=
  max 0 (weighted_sum player_stats weights / 100
          + penalty fam primary secondary tertiary pos)

/-- One iteration of the tracking in source lines 112-115: when
`pos != primary`, replace the running best if it is unset or strictly
beaten.  `best_alt_ovr` and `best_position` are always set together in the
source, so the pair is tracked as one `Option`. -/
def updateBest (primary : Option String) (pos : String) (a : ℚ)
    (best : Option (ℚ × String)) : Option (ℚ × String) :=
  if primary = some pos then best
  else
    match best with
    | none => some (a, pos)
    | some (b, bp) => if a > b then some (a, pos) else some (b, bp)

/-- The `for pos in weightings_dict.keys()` loop. -/
def calcLoop (fam : FamTable) (player_stats : Stats)
    (primary secondary tertiary : Option String) :
    WeightTable → Option (ℚ × String) → Option (ℚ × String)
  | [], best => best
  | (pos, w) :: rest, best =>
      calcLoop fam player_stats primary secondary tertiary rest
        (updateBest primary pos
          (alt_ovr fam player_stats primary secondary tertiary pos w) best)

/-- The dict returned by `calculate_best_alt_ovr`. -/
structure EvalResult where
  best_alt_position : Option String
  best_alt_ovr : ℤ
  delta_to_overall : ℤ
  deriving DecidableEq, Repr

/-- `calculate_best_alt_ovr` (source lines 94-128), with the module-level
`weightings_dict` and `familiarity_dict` passed explicitly. -/
def calculate_best_alt_ovr (wt : WeightTable) (fam : FamTable)
    (player_stats : Stats) (primary secondary tertiary : Option String)
    (overall : ℤ) : EvalResult :=
  match calcLoop fam player_stats primary secondary tertiary wt none with
  | none =>
      { best_alt_position := primary, best_alt_ovr := overall, delta_to_overall := 0 }
  | some (b, bp) =>
      if b ≤ (overall : ℚ) then
        { best_alt_position := primary, best_alt_ovr := overall, delta_to_overall := 0 }
      else
        { best_alt_position := some bp
          best_alt_ovr := pyRound b
          delta_to_overall := pyRound (b - overall) }

/-! ## Floor-price cache

Embedding of `get_floor_price(age, ovr, position)` (mfl_market_viewer.py
lines 43-75).  The module-level `floor_price_cache` dict is passed in and the
updated dict returned; `now = time.time()` is a parameter; the single
`requests.get` the function may issue is described by a `RemoteResult`
parameter.  `save_floor_cache` only persists the dict and is absorbed into
the returned cache value.  The returned `remoteCalls` counts how many remote
lookups the call performed (0 or 1). -/

/-- `CACHE_EXPIRY_SECONDS = 3600` (source line 25). -/
def CACHE_EXPIRY_SECONDS : ℚ := 3600

/-- One value of `floor_price_cache`: a JSON object that may or may not carry
a `"price"` field and a `"timestamp"` field.  A present price may itself be
`None` (the recorded absence of a prior failed lookup), hence the inner
`Option`. -/
structure FloorEntry where
  price : Option (Option ℚ)
  timestamp : Option ℚ
  deriving DecidableEq, Repr

/-- Cache keys.  `generate_floor_key` is the md5 hex digest of the string
`"age-ovr-position"`; md5 is modelled as injective, so the key is the triple
itself. -/
abbrev FloorKey := ℤ × ℤ × String

/-- `generate_floor_key(age, ovr, position)` (source lines 40-41). -/
def generate_floor_key (age ovr : ℤ) (position : String) : FloorKey :=
  (age, ovr, position)

/-- `floor_price_cache` as an association list; a later dict assignment
shadows the older binding for the same key. -/
abbrev FloorCache := List (FloorKey × FloorEntry)

/-- Python `key in cache` / `cache[key]`. -/
def cacheGet : FloorCache → FloorKey → Option FloorEntry
  | [], _ => none
  | (k, v) :: rest, key => if k = key then some v else cacheGet rest key

/-- Python `cache[key] = entry`. -/
def cacheSet (c : FloorCache) (k : FloorKey) (v : FloorEntry) : FloorCache :=
  (k, v) :: c

/-- One record of the listings payload; `price` is `none` when the record has
no `"price"` key (`"price" in data[0]` fails), and `some none` when the field
is present but null. -/
structure RemoteRecord where
  price : Option (Option ℚ)
  deriving DecidableEq, Repr

/-- What the single `requests.get` inside `get_floor_price` would deliver:
either an exception, or a response with a status code and a JSON body.  A
body that is not a list (the `isinstance(data, list)` check) is `none`. -/
inductive RemoteResult where
  | exn : RemoteResult
  | resp (status : ℕ) (data : Option (List RemoteRecord)) : RemoteResult
  deriving DecidableEq, Repr

/-- Outcome of one `get_floor_price` call: the returned value (`Except.error
()` models an uncaught `KeyError` from `cached["price"]`), the cache
afterwards, and how many remote lookups were performed. -/
structure GetFloorResult where
  ret : Except Unit (Option ℚ)
  cache : FloorCache
  remoteCalls : ℕ
  deriving Repr

/-- Source lines 61-75: the single remote lookup, the success path that
caches the first record's price, and the shared failure path (exception,
non-200 status, malformed or empty payload) that caches an absent price. -/
def floorRemote (cache : FloorCache) (now : ℚ) (remote : RemoteResult)
    (key : FloorKey) : GetFloorResult :=
  match remote with
  | .exn => ⟨.ok none, cacheSet cache key ⟨some none, some now⟩, 1⟩
  | .resp status data =>
      if status = 200 then
        match data with
        | some (rec :: _) =>
            match rec.price with
            | some price =>
                ⟨.ok price, cacheSet cache key ⟨some price, some now⟩, 1⟩
            | none => ⟨.ok none, cacheSet cache key ⟨some none, some now⟩, 1⟩
        | some [] => ⟨.ok none, cacheSet cache key ⟨some none, some now⟩, 1⟩
        | none => ⟨.ok none, cacheSet cache key ⟨some none, some now⟩, 1⟩
      else ⟨.ok none, cacheSet cache key ⟨some none, some now⟩, 1⟩

/-- `get_floor_price(age, ovr, position)` (source lines 43-75). -/
def get_floor_price (cache : FloorCache) (now : ℚ) (remote : RemoteResult)
    (age ovr : Option ℤ) (position : Option String) : GetFloorResult :=
  match age, ovr, position with
  | some a, some o, some p =>
      match cacheGet cache (generate_floor_key a o p) with
      | some cached =>
          if now - cached.timestamp.getD 0 < CACHE_EXPIRY_SECONDS then
            match cached.price with
            | some v => ⟨.ok v, cache, 0⟩
            | none => ⟨.error (), cache, 0⟩
          else floorRemote cache now remote (generate_floor_key a o p)
      | none => floorRemote cache now remote (generate_floor_key a o p)
  | _, _, _ => ⟨.ok none, cache, 0⟩

/-! ## Listing pager

Embedding of the initial preload loops: mfl_market_viewer.py lines 184-192
(`for _ in range(6)` over `load_listings`) and mfl_scouting.py lines 131-137
(`for _ in range(3)` over `fetch_scouting_list`).  A fetch is modelled as a
function from the cursor (`beforeListingId` / `beforePlayerId`) to the pair
(status code, JSON list body).  Only the cursor field of a record matters to
the loop, so records are reduced to it. -/

/-- A marketplace listing record, reduced to the field the pager reads. -/
structure Listing where
  listingResourceId : ℕ
  deriving DecidableEq, Repr

/-- A scouting player record, reduced to the field the pager reads. -/
structure ScoutPlayer where
  id : ℕ
  deriving DecidableEq, Repr

/-- `load_listings` (market page lines 168-174): a non-200 response surfaces
an error notice and yields `[]`; otherwise the JSON body is returned. -/
def load_listings (resp : ℕ × List Listing) : List Listing :=
  if resp.1 ≠ 200 then [] else resp.2

/-- `fetch_scouting_list` (scouting page lines 120-126); same shape. -/
def fetch_scouting_list (resp : ℕ × List ScoutPlayer) : List ScoutPlayer :=
  if resp.1 ≠ 200 then [] else resp.2

/-- The preload loop both pages run while the session list is empty: fetch a
page, stop on an empty batch, else append it and advance the cursor to the
last record's id.  Returns the accumulated records, the final cursor, and
the number of fetches performed. -/
def loadLoop {α : Type} [DecidableEq α] (getId : α → ℕ) (page : Option ℕ → List α) :
    ℕ → Option ℕ → List α × Option ℕ × ℕ
  | 0, last => ([], last, 0)
  | n + 1, last =>
      let batch := page last
      if h : batch = [] then ([], last, 1)
      else
        let r := loadLoop getId page n (some (getId (batch.getLast h)))
        (batch ++ r.1, r.2.1, r.2.2 + 1)

/-- Market page initial load, lines 184-192: six fetches at most. -/
def market_preload (fetch : Option ℕ → ℕ × List Listing) (last : Option ℕ) :
    List Listing × Option ℕ × ℕ :=
  loadLoop (fun l => l.listingResourceId) (fun c => load_listings (fetch c)) 6 last

/-- Scouting page initial load, lines 131-137: three fetches at most. -/
def scouting_preload (fetch : Option ℕ → ℕ × List ScoutPlayer) (last : Option ℕ) :
    List ScoutPlayer × Option ℕ × ℕ :=
  loadLoop (fun p => p.id) (fun c => fetch_scouting_list (fetch c)) 3 last

/-- Modelled from the spec: the sequence of non-empty pages the preload
consumes before it stops (stated in §4.5 and §7 as what the accumulated
collection must concatenate). -/
def fullBatches {α : Type} [DecidableEq α] (getId : α → ℕ) (page : Option ℕ → List α) :
    ℕ → Option ℕ → List (List α)
  | 0, _ => []
  | n + 1, last =>
      let batch := page last
      if h : batch = [] then []
      else batch :: fullBatches getId page n (some (getId (batch.getLast h)))

/-! ## Helper lemmas about pyRound -/

lemma pyRound_eq_low (q : ℚ) (n : ℤ) (h1 : (n : ℚ) ≤ q) (h2 : q - n < 1/2) :
    pyRound q = n := by
  have hf : ⌊q⌋ = n := Int.floor_eq_iff.mpr ⟨h1, by linarith⟩
  unfold pyRound
  rw [hf, if_pos h2]

lemma pyRound_eq_high (q : ℚ) (n : ℤ) (h1 : (n : ℚ) ≤ q) (h2 : q < n + 1)
    (h3 : 1/2 < q - n) : pyRound q = n + 1 := by
  have hf : ⌊q⌋ = n := Int.floor_eq_iff.mpr ⟨h1, by linarith⟩
  unfold pyRound
  rw [hf, if_neg (by linarith), if_pos h3]

lemma pyRound_eq_half_even (q : ℚ) (n : ℤ) (h : q - n = 1/2) (he : n % 2 = 0) :
    pyRound q = n := by
  have hf : ⌊q⌋ = n := Int.floor_eq_iff.mpr ⟨by linarith, by linarith⟩
  unfold pyRound
  rw [hf, if_neg (by linarith), if_neg (by linarith), if_pos he]

lemma pyRound_eq_half_odd (q : ℚ) (n : ℤ) (h : q - n = 1/2) (ho : ¬ n % 2 = 0) :
    pyRound q = n + 1 := by
  have hf : ⌊q⌋ = n := Int.floor_eq_iff.mpr ⟨by linarith, by linarith⟩
  unfold pyRound
  rw [hf, if_neg (by linarith), if_neg (by linarith), if_neg ho]

/-- pyRound never rounds below the floor. -/
lemma floor_le_pyRound (q : ℚ) : ⌊q⌋ ≤ pyRound q := by
  unfold pyRound
  split
  · exact le_refl _
  · split
    · omega
    · split <;> omega

/-- A value strictly above an integer rounds to at least that integer. -/
lemma le_pyRound_of_int_lt (q : ℚ) (n : ℤ) (h : (n : ℚ) < q) : n ≤ pyRound q :=
  le_trans (Int.le_floor.mpr h.le) (floor_le_pyRound q)

/-- Subtracting an integer commutes with pyRound away from exact halves. -/
lemma pyRound_sub_int (q : ℚ) (m : ℤ) (h : q - ⌊q⌋ ≠ 1/2) :
    pyRound (q - m) = pyRound q - m := by
  have hle : ((⌊q⌋ : ℚ)) ≤ q := Int.floor_le q
  have hlt1 : q < ⌊q⌋ + 1 := Int.lt_floor_add_one q
  rcases lt_trichotomy (q - ⌊q⌋) (1/2 : ℚ) with hlt | heq | hgt
  · rw [pyRound_eq_low q ⌊q⌋ hle hlt,
      pyRound_eq_low (q - m) (⌊q⌋ - m) (by push_cast; linarith) (by push_cast; linarith)]
  · exact absurd heq h
  · rw [pyRound_eq_high q ⌊q⌋ hle hlt1 hgt,
      pyRound_eq_high (q - m) (⌊q⌋ - m) (by push_cast; linarith)
        (by push_cast; linarith) (by push_cast; linarith)]
    ring

/-! ## Helper lemmas about the evaluator loop -/

/-- If every table position equals the primary, the loop never updates. -/
lemma calcLoop_all_primary (fam : FamTable) (stats : Stats) (p s t : Option String) :
    ∀ (wt : WeightTable) (acc : Option (ℚ × String)),
      (∀ qw ∈ wt, p = some qw.1) →
      calcLoop fam stats p s t wt acc = acc := by
  intro wt
  induction wt with
  | nil => intro acc _; rfl
  | cons hd tl ih =>
      intro acc hall
      obtain ⟨pos, w⟩ := hd
      have hp : p = some pos := hall (pos, w) (List.mem_cons_self _ _)
      simp only [calcLoop, updateBest, if_pos hp]
      exact ih acc (fun qw hqw => hall qw (List.mem_cons_of_mem _ hqw))

/-- If the loop returns nothing, it started with nothing and saw only the
primary position. -/
lemma calcLoop_eq_none (fam : FamTable) (stats : Stats) (p s t : Option String) :
    ∀ (wt : WeightTable) (acc : Option (ℚ × String)),
      calcLoop fam stats p s t wt acc = none →
      acc = none ∧ ∀ qw ∈ wt, p = some qw.1 := by
  intro wt
  induction wt with
  | nil => intro acc h; exact ⟨h, by simp⟩
  | cons hd tl ih =>
      intro acc h
      obtain ⟨pos, w⟩ := hd
      simp only [calcLoop] at h
      obtain ⟨hup, htl⟩ := ih _ h
      by_cases hp : p = some pos
      · rw [updateBest.eq_def, if_pos hp] at hup
        refine ⟨hup, ?_⟩
        intro qw hqw
        rcases List.mem_cons.mp hqw with heq | hm
        · rw [heq]; exact hp
        · exact htl qw hm
      · exfalso
        rw [updateBest.eq_def, if_neg hp] at hup
        rcases acc with _ | ⟨b0, p0⟩
        · simp at hup
        · dsimp only at hup
          split_ifs at hup

/-- Running-best invariant of the loop: a returned best is either the
initial accumulator, unbeaten by the whole table, or the first non-primary
table entry attaining the maximal candidate rating (later entries only tie
or fall below, earlier ones fall strictly below). -/
lemma calcLoop_sound (fam : FamTable) (stats : Stats) (p s t : Option String) :
    ∀ (wt : WeightTable) (acc : Option (ℚ × String)) (b : ℚ) (bp : String),
      calcLoop fam stats p s t wt acc = some (b, bp) →
      (acc = some (b, bp) ∧ ∀ qw ∈ wt, p ≠ some qw.1 →
          alt_ovr fam stats p s t qw.1 qw.2 ≤ b)
      ∨ (∃ pre w post,
          wt = pre ++ (bp, w) :: post
          ∧ p ≠ some bp
          ∧ b = alt_ovr fam stats p s t bp w
          ∧ (∀ qw ∈ pre, p ≠ some qw.1 → alt_ovr fam stats p s t qw.1 qw.2 < b)
          ∧ (∀ qw ∈ post, p ≠ some qw.1 → alt_ovr fam stats p s t qw.1 qw.2 ≤ b)
          ∧ (∀ b0 p0, acc = some (b0, p0) → b0 < b)) := by
  intro wt
  induction wt with
  | nil =>
      intro acc b bp h
      exact Or.inl ⟨h, by simp⟩
  | cons hd tl ih =>
      intro acc b bp h
      obtain ⟨pos, w⟩ := hd
      simp only [calcLoop] at h
      by_cases hp : p = some pos
      · have hup : updateBest p pos (alt_ovr fam stats p s t pos w) acc = acc := by
          simp [updateBest, hp]
        rw [hup] at h
        rcases ih acc b bp h with ⟨hacc, hall⟩ |
          ⟨pre, w', post, heq, hnp, hb, hpre, hpost, haccb⟩
        · refine Or.inl ⟨hacc, ?_⟩
          intro qw hqw hq
          rcases List.mem_cons.mp hqw with heq2 | hm
          · exact absurd hp (by rw [heq2] at hq; exact hq)
          · exact hall qw hm hq
        · refine Or.inr ⟨(pos, w) :: pre, w', post, by rw [heq]; rfl, hnp, hb, ?_,
            hpost, haccb⟩
          intro qw hqw hq
          rcases List.mem_cons.mp hqw with heq2 | hm
          · exact absurd hp (by rw [heq2] at hq; exact hq)
          · exact hpre qw hm hq
      · rcases hacc : acc with _ | ⟨b0, p0⟩
        · subst hacc
          have hup : updateBest p pos (alt_ovr fam stats p s t pos w) none
              = some (alt_ovr fam stats p s t pos w, pos) := by
            simp [updateBest, hp]
          rw [hup] at h
          rcases ih _ b bp h with ⟨hacc2, hall⟩ |
            ⟨pre, w', post, heq, hnp, hb, hpre, hpost, haccb⟩
          · simp only [Option.some.injEq, Prod.mk.injEq] at hacc2
            obtain ⟨rfl, rfl⟩ := hacc2
            refine Or.inr ⟨[], w, tl, rfl, hp, rfl, by simp, hall, by simp⟩
          · have hlt : alt_ovr fam stats p s t pos w < b :=
              haccb _ pos rfl
            refine Or.inr ⟨(pos, w) :: pre, w', post, by rw [heq]; rfl, hnp, hb, ?_,
              hpost, by simp⟩
            intro qw hqw hq
            rcases List.mem_cons.mp hqw with heq2 | hm
            · rw [heq2]; exact hlt
            · exact hpre qw hm hq
        · subst hacc
          by_cases hgt : alt_ovr fam stats p s t pos w > b0
          · have hup : updateBest p pos (alt_ovr fam stats p s t pos w) (some (b0, p0))
                = some (alt_ovr fam stats p s t pos w, pos) := by
              simp [updateBest, hp, hgt]
            rw [hup] at h
            rcases ih _ b bp h with ⟨hacc2, hall⟩ |
              ⟨pre, w', post, heq, hnp, hb, hpre, hpost, haccb⟩
            · simp only [Option.some.injEq, Prod.mk.injEq] at hacc2
              obtain ⟨rfl, rfl⟩ := hacc2
              refine Or.inr ⟨[], w, tl, rfl, hp, rfl, by simp, hall, ?_⟩
              intro b1 p1 h1
              simp only [Option.some.injEq, Prod.mk.injEq] at h1
              obtain ⟨rfl, rfl⟩ := h1
              exact hgt
            · have hlt : alt_ovr fam stats p s t pos w < b :=
                haccb _ pos rfl
              refine Or.inr ⟨(pos, w) :: pre, w', post, by rw [heq]; rfl, hnp, hb, ?_,
                hpost, ?_⟩
              · intro qw hqw hq
                rcases List.mem_cons.mp hqw with heq2 | hm
                · rw [heq2]; exact hlt
                · exact hpre qw hm hq
              · intro b1 p1 h1
                simp only [Option.some.injEq, Prod.mk.injEq] at h1
                obtain ⟨rfl, rfl⟩ := h1
                exact lt_trans hgt hlt
          · have hup : updateBest p pos (alt_ovr fam stats p s t pos w) (some (b0, p0))
                = some (b0, p0) := by
              simp [updateBest, hp, hgt]
            rw [hup] at h
            rcases ih _ b bp h with ⟨hacc2, hall⟩ |
              ⟨pre, w', post, heq, hnp, hb, hpre, hpost, haccb⟩
            · simp only [Option.some.injEq, Prod.mk.injEq] at hacc2
              obtain ⟨rfl, rfl⟩ := hacc2
              refine Or.inl ⟨rfl, ?_⟩
              intro qw hqw hq
              rcases List.mem_cons.mp hqw with heq2 | hm
              · rw [heq2]; exact not_lt.mp hgt
              · exact hall qw hm hq
            · have hlt : b0 < b := haccb b0 p0 rfl
              refine Or.inr ⟨(pos, w) :: pre, w', post, by rw [heq]; rfl, hnp, hb, ?_,
                hpost, ?_⟩
              · intro qw hqw hq
                rcases List.mem_cons.mp hqw with heq2 | hm
                · rw [heq2]; exact lt_of_le_of_lt (not_lt.mp hgt) hlt
                · exact hpre qw hm hq
              · intro b1 p1 h1
                simp only [Option.some.injEq, Prod.mk.injEq] at h1
                obtain ⟨rfl, rfl⟩ := h1
                exact hlt

/-- Starting from an empty accumulator, the loop's result is the first
non-primary entry attaining the maximal candidate rating. -/
lemma calcLoop_best (fam : FamTable) (stats : Stats) (p s t : Option String)
    (wt : WeightTable) (b : ℚ) (bp : String)
    (h : calcLoop fam stats p s t wt none = some (b, bp)) :
    ∃ pre w post,
      wt = pre ++ (bp, w) :: post
      ∧ p ≠ some bp
      ∧ b = alt_ovr fam stats p s t bp w
      ∧ (∀ qw ∈ pre, p ≠ some qw.1 → alt_ovr fam stats p s t qw.1 qw.2 < b)
      ∧ (∀ qw ∈ wt, p ≠ some qw.1 → alt_ovr fam stats p s t qw.1 qw.2 ≤ b) := by
  rcases calcLoop_sound fam stats p s t wt none b bp h with ⟨hacc, _⟩ |
    ⟨pre, w, post, heq, hnp, hb, hpre, hpost, _⟩
  · exact absurd hacc (by simp)
  · refine ⟨pre, w, post, heq, hnp, hb, hpre, ?_⟩
    intro qw hqw hq
    rw [heq] at hqw
    rcases List.mem_append.mp hqw with hm | hm
    · exact le_of_lt (hpre qw hm hq)
    · rcases List.mem_cons.mp hm with heq2 | hm2
      · rw [heq2]; exact le_of_eq hb.symm
      · exact hpost qw hm2 hq

/-! ## Helper lemmas about the floor-price cache -/

/-- Looking up the key just written returns the written entry. -/
lemma cacheGet_cacheSet (c : FloorCache) (k : FloorKey) (v : FloorEntry) :
    cacheGet (cacheSet c k v) k = some v := by
  simp [cacheGet, cacheSet]

/-- Every branch of the remote lookup performs exactly one call. -/
lemma floorRemote_calls (cache : FloorCache) (now : ℚ) (remote : RemoteResult)
    (key : FloorKey) : (floorRemote cache now remote key).remoteCalls = 1 := by
  rcases remote with _ | ⟨status, data⟩
  · rfl
  · simp only [floorRemote]
    by_cases h : status = 200
    · rw [if_pos h]
      rcases data with _ | (_ | ⟨rec, rest⟩)
      · rfl
      · rfl
      · rcases hrp : rec.price with _ | pv <;> simp [hrp]
    · rw [if_neg h]

/-- Every branch of the remote lookup returns normally (no exception escapes
the try block). -/
lemma floorRemote_ok (cache : FloorCache) (now : ℚ) (remote : RemoteResult)
    (key : FloorKey) : ∃ v : Option ℚ, (floorRemote cache now remote key).ret = .ok v := by
  rcases remote with _ | ⟨status, data⟩
  · exact ⟨none, rfl⟩
  · simp only [floorRemote]
    by_cases h : status = 200
    · rw [if_pos h]
      rcases data with _ | (_ | ⟨rec, rest⟩)
      · exact ⟨none, rfl⟩
      · exact ⟨none, rfl⟩
      · rcases hrp : rec.price with _ | pv
        · exact ⟨none, by simp [hrp]⟩
        · exact ⟨pv, by simp [hrp]⟩
    · rw [if_neg h]
      exact ⟨none, rfl⟩

/-- A failing lookup (exception, non-200, malformed or empty payload, or a
first record with no price field) caches an absent price stamped `now` and
returns it. -/
lemma floorRemote_fail (cache : FloorCache) (now : ℚ) (remote : RemoteResult)
    (key : FloorKey)
    (h : remote = .exn ∨ ∃ status data, remote = .resp status data ∧
        (status ≠ 200 ∨ data = none ∨ data = some []
          ∨ ∃ r rs, data = some (r :: rs) ∧ r.price = none)) :
    floorRemote cache now remote key
      = ⟨.ok none, cacheSet cache key ⟨some none, some now⟩, 1⟩ := by
  rcases h with rfl | ⟨status, data, rfl, hc⟩
  · rfl
  · simp only [floorRemote]
    rcases hc with hs | rfl | rfl | ⟨r, rs, rfl, hp⟩
    · rw [if_neg hs]
    · split_ifs <;> rfl
    · split_ifs <;> rfl
    · by_cases h200 : status = 200
      · rw [if_pos h200]
        simp [hp]
      · rw [if_neg h200]

/-- When the cache holds no fresh entry for the key, `get_floor_price` goes
remote. -/
lemma get_floor_price_goes_remote (cache : FloorCache) (now : ℚ)
    (remote : RemoteResult) (a o : ℤ) (pstr : String)
    (h : ∀ e, cacheGet cache (a, o, pstr) = some e →
        ¬ (now - e.timestamp.getD 0 < CACHE_EXPIRY_SECONDS)) :
    get_floor_price cache now remote (some a) (some o) (some pstr)
      = floorRemote cache now remote (a, o, pstr) := by
  simp only [get_floor_price, generate_floor_key]
  rcases hcg : cacheGet cache (a, o, pstr) with _ | e
  · rfl
  · dsimp only
    rw [if_neg (h e hcg)]

/-! ## Helper lemma about the preload loop -/

/-- The loop accumulates exactly the concatenation of the non-empty pages it
consumes, and performs `min n (pages + 1)` fetches on fuel `n`: one per
non-empty page plus the stopping fetch, capped at the fuel. -/
lemma loadLoop_spec {α : Type} [DecidableEq α] (getId : α → ℕ)
    (page : Option ℕ → List α) :
    ∀ (n : ℕ) (last : Option ℕ),
      (loadLoop getId page n last).1 = (fullBatches getId page n last).flatten
      ∧ (loadLoop getId page n last).2.2
          = min n ((fullBatches getId page n last).length + 1) := by
  intro n
  induction n with
  | zero => intro last; simp [loadLoop, fullBatches]
  | succ n ih =>
      intro last
      by_cases h : page last = []
      · simp [loadLoop, fullBatches, h]
      · obtain ⟨ih1, ih2⟩ := ih (some (getId ((page last).getLast h)))
        simp only [loadLoop, fullBatches, dif_neg h, List.flatten_cons,
          List.length_cons]
        refine ⟨by rw [ih1], ?_⟩
        rw [ih2]
        omega

/-! ## Concrete evaluations used by witnesses and counterexamples -/

/-- A primary-"CB" player with overall 65 whose "ST" candidate rating is
exactly 66.5: round-half-to-even sends 66.5 to 66 but 1.5 to 2. -/
lemma eval_halfcase :
    calculate_best_alt_ovr
      [("CB", [("DEF", 100)]), ("ST", [("SHO", 50), ("PAS", 50)])] []
      [("DEF", 65), ("SHO", 67), ("PAS", 66)] (some "CB") none none 65
    = { best_alt_position := some "ST", best_alt_ovr := 66, delta_to_overall := 2 } := by
  norm_num +decide [calculate_best_alt_ovr, calcLoop, updateBest, alt_ovr, weighted_sum,
    dictGetD, penalty, famPenalty, max_def]
  constructor
  · exact pyRound_eq_half_even _ 66 (by norm_num) (by norm_num)
  · rw [pyRound_eq_half_odd (3/2) 1 (by norm_num) (by norm_num)]
    norm_num

/-- A primary-"CB" player with overall 65 whose "ST" candidate rating is
65.2: the improvement branch is taken but the delta rounds to 0. -/
lemma eval_smallgain :
    calculate_best_alt_ovr
      [("CB", [("DEF", 100)]), ("ST", [("SHO", 60), ("PAS", 40)])] []
      [("DEF", 65), ("SHO", 66), ("PAS", 64)] (some "CB") none none 65
    = { best_alt_position := some "ST", best_alt_ovr := 65, delta_to_overall := 0 } := by
  norm_num +decide [calculate_best_alt_ovr, calcLoop, updateBest, alt_ovr, weighted_sum,
    dictGetD, penalty, famPenalty, max_def]
  constructor
  · exact pyRound_eq_low _ 65 (by norm_num) (by norm_num)
  · exact pyRound_eq_low _ 0 (by norm_num) (by norm_num)

/-- One-candidate table: the loop tracks ("ST", 80). -/
lemma calcLoop_singleST :
    calcLoop [] [("SHO", 80)] (some "CB") none none
      [("ST", [("SHO", 100)])] none = some (80, "ST") := by
  norm_num +decide [calcLoop, updateBest, alt_ovr, weighted_sum, dictGetD,
    penalty, famPenalty, max_def]

/-- The corresponding full evaluation: a clean +10 improvement. -/
lemma eval_singleST :
    calculate_best_alt_ovr [("ST", [("SHO", 100)])] [] [("SHO", 80)]
      (some "CB") none none 70
    = { best_alt_position := some "ST", best_alt_ovr := 80, delta_to_overall := 10 } := by
  simp only [calculate_best_alt_ovr, calcLoop_singleST]
  rw [if_neg (by norm_num)]
  rw [show ((80 : ℚ) - ((70 : ℤ) : ℚ)) = 10 by norm_num]
  rw [pyRound_eq_low 80 80 (by norm_num) (by norm_num),
    pyRound_eq_low 10 10 (by norm_num) (by norm_num)]

/-- A table with an exact tie between "LM" and "RM": the earlier entry wins. -/
lemma calcLoop_tie :
    calcLoop [] [("PAS", 70), ("DEF", 50)] (some "CB") none none
      [("CB", [("DEF", 100)]), ("LM", [("PAS", 100)]), ("RM", [("PAS", 100)])] none
      = some (70, "LM") := by
  norm_num +decide [calcLoop, updateBest, alt_ovr, weighted_sum, dictGetD,
    penalty, famPenalty, max_def]

/-! ## Claim theorems -/

/-- C1 counterexample: with primary "CB", overall 65 and an "ST" candidate
rating of exactly 66.5, evaluate returns delta = round(1.5) = 2 while
candidateOverall − currentOverall = 66 − 65 = 1, so in the improvement
branch the returned delta does not equal candidateOverall − currentOverall. -/
theorem delta_not_diff_counterexample :
    0 < (calculate_best_alt_ovr
      [("CB", [("DEF", 100)]), ("ST", [("SHO", 50), ("PAS", 50)])] []
      [("DEF", 65), ("SHO", 67), ("PAS", 66)] (some "CB") none none 65).delta_to_overall
    ∧ (calculate_best_alt_ovr
      [("CB", [("DEF", 100)]), ("ST", [("SHO", 50), ("PAS", 50)])] []
      [("DEF", 65), ("SHO", 67), ("PAS", 66)] (some "CB") none none 65).delta_to_overall
      ≠ (calculate_best_alt_ovr
      [("CB", [("DEF", 100)]), ("ST", [("SHO", 50), ("PAS", 50)])] []
      [("DEF", 65), ("SHO", 67), ("PAS", 66)] (some "CB") none none 65).best_alt_ovr
        - 65 := by
  rw [eval_halfcase]
  norm_num

/-- C1 (amended): whenever evaluate returns delta > 0 and the winning raw
candidate rating is not an exact half-integer, the returned delta equals
candidateOverall − currentOverall.  (At exact halves round-half-to-even can
break the identity, as the counterexample shows: the code rounds the rating
and the difference separately.) -/
theorem delta_eq_diff_of_not_half
    (wt : WeightTable) (fam : FamTable) (stats : Stats)
    (p s t : Option String) (overall : ℤ)
    (hd : 0 < (calculate_best_alt_ovr wt fam stats p s t overall).delta_to_overall)
    (hh : ∀ b bp, calcLoop fam stats p s t wt none = some (b, bp) → b - ⌊b⌋ ≠ 1/2) :
    (calculate_best_alt_ovr wt fam stats p s t overall).delta_to_overall
      = (calculate_best_alt_ovr wt fam stats p s t overall).best_alt_ovr - overall := by
  rcases hcl : calcLoop fam stats p s t wt none with _ | ⟨b, bp⟩
  · simp only [calculate_best_alt_ovr, hcl] at hd
    exact absurd hd (by norm_num)
  · by_cases hle : b ≤ (overall : ℚ)
    · simp only [calculate_best_alt_ovr, hcl, if_pos hle] at hd
      exact absurd hd (by norm_num)
    · simp only [calculate_best_alt_ovr, hcl, if_neg hle]
      exact pyRound_sub_int b overall (hh b bp hcl)

/-- C1 witness: a clean +10 improvement where the identity holds. -/
theorem delta_eq_diff_of_not_half_witness :
    (calculate_best_alt_ovr [("ST", [("SHO", 100)])] [] [("SHO", 80)]
        (some "CB") none none 70).delta_to_overall
      = (calculate_best_alt_ovr [("ST", [("SHO", 100)])] [] [("SHO", 80)]
        (some "CB") none none 70).best_alt_ovr - 70 :=
  delta_eq_diff_of_not_half _ _ _ _ _ _ 70
    (by rw [eval_singleST]; norm_num)
    (by
      intro b bp h
      rw [calcLoop_singleST] at h
      simp only [Option.some.injEq, Prod.mk.injEq] at h
      obtain ⟨rfl, -⟩ := h
      have hf : ⌊(80 : ℚ)⌋ = 80 := Int.floor_eq_iff.mpr ⟨by norm_num, by norm_num⟩
      rw [hf]
      norm_num)

/-- C2 counterexample: primary "CB", overall 65, and an "ST" candidate rated
65.2 > 65: the improvement branch is taken (a non-primary candidate strictly
exceeds the current overall), yet the returned delta is round(0.2) = 0, not
strictly positive. -/
theorem improvement_delta_zero_counterexample :
    (("ST", [("SHO", 60), ("PAS", 40)])
        ∈ [("CB", [("DEF", 100)]), ("ST", [("SHO", 60), ("PAS", 40)])]
      ∧ (some "CB" : Option String) ≠ some "ST"
      ∧ (65 : ℚ) < alt_ovr [] [("DEF", 65), ("SHO", 66), ("PAS", 64)]
          (some "CB") none none "ST" [("SHO", 60), ("PAS", 40)])
    ∧ ¬ (0 < (calculate_best_alt_ovr
        [("CB", [("DEF", 100)]), ("ST", [("SHO", 60), ("PAS", 40)])] []
        [("DEF", 65), ("SHO", 66), ("PAS", 64)]
        (some "CB") none none 65).delta_to_overall) := by
  refine ⟨⟨by simp, by decide, ?_⟩, ?_⟩
  · norm_num +decide [alt_ovr, weighted_sum, dictGetD, penalty, famPenalty, max_def]
  · rw [eval_smallgain]
    norm_num

/-- C2 (amended): if some non-primary candidate's rating strictly exceeds
currentOverall, evaluate takes the improvement branch — returning the
tracked best candidate with delta = round(best − overall) — and the returned
delta is nonnegative (not necessarily strictly positive: gains below 0.5
round to a delta of 0). -/
theorem improvement_branch_delta_nonneg
    (wt : WeightTable) (fam : FamTable) (stats : Stats)
    (p s t : Option String) (overall : ℤ)
    (h : ∃ qw ∈ wt, p ≠ some qw.1
        ∧ (overall : ℚ) < alt_ovr fam stats p s t qw.1 qw.2) :
    ∃ b bp, calcLoop fam stats p s t wt none = some (b, bp)
      ∧ (overall : ℚ) < b
      ∧ (calculate_best_alt_ovr wt fam stats p s t overall).best_alt_position
          = some bp
      ∧ (calculate_best_alt_ovr wt fam stats p s t overall).delta_to_overall
          = pyRound (b - overall)
      ∧ 0 ≤ (calculate_best_alt_ovr wt fam stats p s t overall).delta_to_overall := by
  obtain ⟨qw, hqw, hnp, hlt⟩ := h
  rcases hcl : calcLoop fam stats p s t wt none with _ | ⟨b, bp⟩
  · obtain ⟨-, hall⟩ := calcLoop_eq_none fam stats p s t wt none hcl
    exact absurd (hall qw hqw) hnp
  · obtain ⟨pre, w, post, heq, hnp2, hb, hpre, hmax⟩ :=
      calcLoop_best fam stats p s t wt b bp hcl
    have hbo : (overall : ℚ) < b := lt_of_lt_of_le hlt (hmax qw hqw hnp)
    have hnle : ¬ b ≤ (overall : ℚ) := not_le.mpr hbo
    refine ⟨b, bp, rfl, hbo, ?_, ?_, ?_⟩
    · simp only [calculate_best_alt_ovr, hcl, if_neg hnle]
    · simp only [calculate_best_alt_ovr, hcl, if_neg hnle]
    · simp only [calculate_best_alt_ovr, hcl, if_neg hnle]
      exact le_pyRound_of_int_lt (b - overall) 0 (by push_cast; linarith)

/-- C2 witness: the +10 improvement input takes the branch with delta 10. -/
theorem improvement_branch_delta_nonneg_witness :
    ∃ b bp, calcLoop [] [("SHO", 80)] (some "CB") none none
        [("ST", [("SHO", 100)])] none = some (b, bp)
      ∧ ((70 : ℤ) : ℚ) < b
      ∧ (calculate_best_alt_ovr [("ST", [("SHO", 100)])] [] [("SHO", 80)]
          (some "CB") none none 70).best_alt_position = some bp
      ∧ (calculate_best_alt_ovr [("ST", [("SHO", 100)])] [] [("SHO", 80)]
          (some "CB") none none 70).delta_to_overall = pyRound (b - (70 : ℤ))
      ∧ 0 ≤ (calculate_best_alt_ovr [("ST", [("SHO", 100)])] [] [("SHO", 80)]
          (some "CB") none none 70).delta_to_overall :=
  improvement_branch_delta_nonneg _ _ _ _ _ _ 70
    ⟨("ST", [("SHO", 100)]), by simp, by decide,
      by norm_num +decide [alt_ovr, weighted_sum, dictGetD, penalty, famPenalty,
        max_def]⟩

/-- C3: when no candidate position exists (every table position is the
primary) or the best candidate does not exceed the current overall, evaluate
returns the primary position itself with candidateOverall = currentOverall
and delta = 0. -/
theorem no_improvement_returns_primary
    (wt : WeightTable) (fam : FamTable) (stats : Stats)
    (p s t : Option String) (overall : ℤ)
    (h : (∀ qw ∈ wt, p = some qw.1)
       ∨ ∃ b bp, calcLoop fam stats p s t wt none = some (b, bp)
          ∧ b ≤ (overall : ℚ)) :
    calculate_best_alt_ovr wt fam stats p s t overall
      = { best_alt_position := p, best_alt_ovr := overall, delta_to_overall := 0 } := by
  rcases h with hall | ⟨b, bp, hcl, hle⟩
  · have hcl : calcLoop fam stats p s t wt none = none :=
      calcLoop_all_primary fam stats p s t wt none hall
    simp only [calculate_best_alt_ovr, hcl]
  · simp only [calculate_best_alt_ovr, hcl, if_pos hle]

/-- C3 witness: a table containing only the primary position. -/
theorem no_improvement_returns_primary_witness :
    calculate_best_alt_ovr [("CB", [("DEF", 100)])] [] [("DEF", 99)]
        (some "CB") none none 70
      = { best_alt_position := some "CB", best_alt_ovr := 70,
          delta_to_overall := 0 } :=
  no_improvement_returns_primary _ _ _ _ _ _ 70
    (Or.inl (by
      intro qw hqw
      simp only [List.mem_singleton] at hqw
      subst hqw
      rfl))

/-- C4: whenever evaluate returns delta > 0, the returned candidateOverall
is at least the player's currentOverall. -/
theorem candidate_overall_ge_current
    (wt : WeightTable) (fam : FamTable) (stats : Stats)
    (p s t : Option String) (overall : ℤ)
    (hd : 0 < (calculate_best_alt_ovr wt fam stats p s t overall).delta_to_overall) :
    overall ≤ (calculate_best_alt_ovr wt fam stats p s t overall).best_alt_ovr := by
  rcases hcl : calcLoop fam stats p s t wt none with _ | ⟨b, bp⟩
  · simp only [calculate_best_alt_ovr, hcl] at hd
    exact absurd hd (by norm_num)
  · by_cases hle : b ≤ (overall : ℚ)
    · simp only [calculate_best_alt_ovr, hcl, if_pos hle] at hd
      exact absurd hd (by norm_num)
    · simp only [calculate_best_alt_ovr, hcl, if_neg hle]
      exact le_pyRound_of_int_lt b overall (not_le.mp hle)

/-- C4 witness: delta 10 > 0 with candidateOverall 80 ≥ 70. -/
theorem candidate_overall_ge_current_witness :
    (70 : ℤ) ≤ (calculate_best_alt_ovr [("ST", [("SHO", 100)])] [] [("SHO", 80)]
      (some "CB") none none 70).best_alt_ovr :=
  candidate_overall_ge_current _ _ _ _ _ _ 70 (by rw [eval_singleST]; norm_num)

/-- C5: the penalty applied to a position is 0 when it is the primary, −1
when it is the secondary or tertiary (and not the primary), and otherwise
the familiarity-table value for (primary, pos) with default 0 — in that
priority order. -/
theorem penalty_priority
    (fam : FamTable) (p s t : Option String) (pos : String) :
    (p = some pos → penalty fam p s t pos = 0)
    ∧ (p ≠ some pos → (s = some pos ∨ t = some pos) →
        penalty fam p s t pos = -1)
    ∧ (p ≠ some pos → s ≠ some pos → t ≠ some pos →
        penalty fam p s t pos = famPenalty fam p pos) := by
  refine ⟨?_, ?_, ?_⟩
  · intro hp
    rw [penalty, if_pos hp]
  · intro hp hst
    rw [penalty, if_neg hp, if_pos hst]
  · intro hp hs ht
    rw [penalty, if_neg hp, if_neg (by tauto)]

/-- C5 witness: one concrete instance of each of the three cases. -/
theorem penalty_priority_witness :
    penalty [(("CB", "LW"), -2)] (some "CB") (some "CDM") none "CB" = 0
    ∧ penalty [(("CB", "LW"), -2)] (some "CB") (some "CDM") none "CDM" = -1
    ∧ penalty [(("CB", "LW"), -2)] (some "CB") (some "CDM") none "LW"
        = famPenalty [(("CB", "LW"), -2)] (some "CB") "LW" :=
  ⟨(penalty_priority [(("CB", "LW"), -2)] (some "CB") (some "CDM") none "CB").1 rfl,
   (penalty_priority [(("CB", "LW"), -2)] (some "CB") (some "CDM") none "CDM").2.1
      (by decide) (Or.inl rfl),
   (penalty_priority [(("CB", "LW"), -2)] (some "CB") (some "CDM") none "LW").2.2
      (by decide) (by decide) (by decide)⟩

/-- C6: the candidate the evaluator loop selects is a non-primary entry of
the weight table, its rating is at least every non-primary candidate's
rating, and it strictly beats every candidate earlier in iteration order —
so on exact rating ties the first-seen position is kept, matching the
strict > comparison. -/
theorem best_candidate_first_maximum
    (wt : WeightTable) (fam : FamTable) (stats : Stats)
    (p s t : Option String) (b : ℚ) (bp : String)
    (h : calcLoop fam stats p s t wt none = some (b, bp)) :
    ∃ pre w post,
      wt = pre ++ (bp, w) :: post
      ∧ p ≠ some bp
      ∧ b = alt_ovr fam stats p s t bp w
      ∧ (∀ qw ∈ pre, p ≠ some qw.1 → alt_ovr fam stats p s t qw.1 qw.2 < b)
      ∧ (∀ qw ∈ wt, p ≠ some qw.1 → alt_ovr fam stats p s t qw.1 qw.2 ≤ b) :=
  calcLoop_best fam stats p s t wt b bp h

/-- C6 witness: with "LM" and "RM" tied at 70, the loop keeps "LM", the
first in iteration order. -/
theorem best_candidate_first_maximum_witness :
    ∃ pre w post,
      ([("CB", [("DEF", 100)]), ("LM", [("PAS", 100)]), ("RM", [("PAS", 100)])]
          : WeightTable)
        = pre ++ ("LM", w) :: post
      ∧ (some "CB" : Option String) ≠ some "LM"
      ∧ (70 : ℚ) = alt_ovr [] [("PAS", 70), ("DEF", 50)] (some "CB") none none
          "LM" w
      ∧ (∀ qw ∈ pre, (some "CB" : Option String) ≠ some qw.1 →
          alt_ovr [] [("PAS", 70), ("DEF", 50)] (some "CB") none none
            qw.1 qw.2 < 70)
      ∧ (∀ qw ∈ ([("CB", [("DEF", 100)]), ("LM", [("PAS", 100)]),
            ("RM", [("PAS", 100)])] : WeightTable),
          (some "CB" : Option String) ≠ some qw.1 →
          alt_ovr [] [("PAS", 70), ("DEF", 50)] (some "CB") none none
            qw.1 qw.2 ≤ 70) :=
  best_candidate_first_maximum _ _ _ _ _ _ 70 "LM" calcLoop_tie

/-- C7: after writing a (price, timestamp) entry for a fully-present
(age, overall, position) triple, a get within 3600 seconds of the stored
timestamp returns the stored price with no remote lookup, and a get when the
entry is 3600 seconds old or older performs exactly one remote lookup. -/
theorem cache_roundtrip (cache : FloorCache) (now : ℚ) (remote : RemoteResult)
    (a o : ℤ) (p : String) (pv : Option ℚ) (t : ℚ) :
    (now - t < CACHE_EXPIRY_SECONDS →
      get_floor_price (cacheSet cache (a, o, p) ⟨some pv, some t⟩) now remote
          (some a) (some o) (some p)
        = ⟨.ok pv, cacheSet cache (a, o, p) ⟨some pv, some t⟩, 0⟩)
    ∧ (CACHE_EXPIRY_SECONDS ≤ now - t →
      (get_floor_price (cacheSet cache (a, o, p) ⟨some pv, some t⟩) now remote
          (some a) (some o) (some p)).remoteCalls = 1) := by
  constructor
  · intro hfresh
    simp only [get_floor_price, generate_floor_key, cacheGet_cacheSet,
      Option.getD_some]
    rw [if_pos hfresh]
  · intro hstale
    simp only [get_floor_price, generate_floor_key, cacheGet_cacheSet,
      Option.getD_some]
    rw [if_neg (not_lt.mpr hstale)]
    exact floorRemote_calls _ _ _ _

/-- C7 witness: a fresh read 10 s after the write, and a stale read exactly
3600 s after it. -/
theorem cache_roundtrip_witness :
    (get_floor_price (cacheSet [] (24, 66, "ST") ⟨some (some 5), some 0⟩) 10 .exn
        (some 24) (some 66) (some "ST")
      = ⟨.ok (some 5), cacheSet [] (24, 66, "ST") ⟨some (some 5), some 0⟩, 0⟩)
    ∧ (get_floor_price (cacheSet [] (24, 66, "ST") ⟨some (some 5), some 0⟩) 3600 .exn
        (some 24) (some 66) (some "ST")).remoteCalls = 1 :=
  ⟨(cache_roundtrip [] 10 .exn 24 66 "ST" (some 5) 0).1
      (by norm_num [CACHE_EXPIRY_SECONDS]),
   (cache_roundtrip [] 3600 .exn 24 66 "ST" (some 5) 0).2
      (by norm_num [CACHE_EXPIRY_SECONDS])⟩

/-- C8: with a fully-present triple and no fresh cache entry, any failing
remote lookup — exception, non-success status, or a payload that is not a
non-empty list whose first record carries a price field — caches an absent
price under the triple's key with the current timestamp and returns absent
(with exactly one remote call). -/
theorem remote_failure_caches_absent (cache : FloorCache) (now : ℚ)
    (remote : RemoteResult) (a o : ℤ) (p : String)
    (hstale : ∀ e, cacheGet cache (a, o, p) = some e →
        ¬ (now - e.timestamp.getD 0 < CACHE_EXPIRY_SECONDS))
    (hfail : remote = .exn ∨ ∃ status data, remote = .resp status data ∧
        (status ≠ 200 ∨ data = none ∨ data = some []
          ∨ ∃ r rs, data = some (r :: rs) ∧ r.price = none)) :
    get_floor_price cache now remote (some a) (some o) (some p)
      = ⟨.ok none, cacheSet cache (a, o, p) ⟨some none, some now⟩, 1⟩ := by
  rw [get_floor_price_goes_remote cache now remote a o p hstale]
  exact floorRemote_fail cache now remote (a, o, p) hfail

/-- C8 witness: an empty cache and a 500 response. -/
theorem remote_failure_caches_absent_witness :
    get_floor_price [] 0 (.resp 500 none) (some 24) (some 66) (some "ST")
      = ⟨.ok none, cacheSet [] (24, 66, "ST") ⟨some none, some 0⟩, 1⟩ :=
  remote_failure_caches_absent [] 0 (.resp 500 none) 24 66 "ST"
    (by intro e he; simp [cacheGet] at he)
    (Or.inr ⟨500, none, rfl, Or.inl (by norm_num)⟩)

/-- C9: each initial preload performs at most its fixed number of fetches
(6 on the marketplace page, 3 on the scouting page) — one per non-empty page
plus the stopping fetch, capped at the constant — and accumulates exactly
the concatenation, in order, of the non-empty pages consumed before the
first empty or failed page (a failed fetch yields the empty page). -/
theorem preload_bounded_stops_and_concatenates :
    ∀ (fetchM : Option ℕ → ℕ × List Listing) (lastM : Option ℕ)
      (fetchS : Option ℕ → ℕ × List ScoutPlayer) (lastS : Option ℕ),
      ((market_preload fetchM lastM).1
          = (fullBatches (fun l => l.listingResourceId)
              (fun c => load_listings (fetchM c)) 6 lastM).flatten
        ∧ (market_preload fetchM lastM).2.2
            = min 6 ((fullBatches (fun l => l.listingResourceId)
                (fun c => load_listings (fetchM c)) 6 lastM).length + 1)
        ∧ (market_preload fetchM lastM).2.2 ≤ 6)
      ∧ ((scouting_preload fetchS lastS).1
          = (fullBatches (fun pl => pl.id)
              (fun c => fetch_scouting_list (fetchS c)) 3 lastS).flatten
        ∧ (scouting_preload fetchS lastS).2.2
            = min 3 ((fullBatches (fun pl => pl.id)
                (fun c => fetch_scouting_list (fetchS c)) 3 lastS).length + 1)
        ∧ (scouting_preload fetchS lastS).2.2 ≤ 3) := by
  intro fetchM lastM fetchS lastS
  obtain ⟨hm1, hm2⟩ := loadLoop_spec (fun l : Listing => l.listingResourceId)
    (fun c => load_listings (fetchM c)) 6 lastM
  obtain ⟨hs1, hs2⟩ := loadLoop_spec (fun pl : ScoutPlayer => pl.id)
    (fun c => fetch_scouting_list (fetchS c)) 3 lastS
  refine ⟨⟨hm1, hm2, ?_⟩, hs1, hs2, ?_⟩
  · show (loadLoop (fun l : Listing => l.listingResourceId)
      (fun c => load_listings (fetchM c)) 6 lastM).2.2 ≤ 6
    omega
  · show (loadLoop (fun pl : ScoutPlayer => pl.id)
      (fun c => fetch_scouting_list (fetchS c)) 3 lastS).2.2 ≤ 3
    omega

/-- C10: a fresh cache entry that lacks a price field makes get fail with a
key-lookup error rather than returning a price or absent; and under the
precondition that every cache entry carries a price field, that error branch
is unreachable and get always returns normally. -/
theorem fresh_entry_missing_price_errors (cache : FloorCache) (now : ℚ)
    (remote : RemoteResult) :
    (∀ (a o : ℤ) (p : String) (e : FloorEntry),
        cacheGet cache (a, o, p) = some e →
        now - e.timestamp.getD 0 < CACHE_EXPIRY_SECONDS →
        e.price = none →
        (get_floor_price cache now remote (some a) (some o) (some p)).ret
          = .error ())
    ∧ ((∀ k e, cacheGet cache k = some e → e.price ≠ none) →
      ∀ (age ovr : Option ℤ) (pos : Option String),
        ∃ v, (get_floor_price cache now remote age ovr pos).ret = .ok v) := by
  constructor
  · intro a o p e hcg hfresh hprice
    simp only [get_floor_price, generate_floor_key, hcg]
    rw [if_pos hfresh, hprice]
  · intro hall age ovr pos
    rcases age with _ | a <;> rcases ovr with _ | o <;> rcases pos with _ | p
    · exact ⟨none, rfl⟩
    · exact ⟨none, rfl⟩
    · exact ⟨none, rfl⟩
    · exact ⟨none, rfl⟩
    · exact ⟨none, rfl⟩
    · exact ⟨none, rfl⟩
    · exact ⟨none, rfl⟩
    · rcases hcg : cacheGet cache (a, o, p) with _ | e
      · rw [get_floor_price_goes_remote cache now remote a o p
          (by intro e2 he2; rw [hcg] at he2; cases he2)]
        exact floorRemote_ok cache now remote (a, o, p)
      · by_cases hfresh : now - e.timestamp.getD 0 < CACHE_EXPIRY_SECONDS
        · rcases hep : e.price with _ | v
          · exact absurd hep (hall _ e hcg)
          · refine ⟨v, ?_⟩
            simp only [get_floor_price, generate_floor_key, hcg]
            rw [if_pos hfresh, hep]
        · rw [get_floor_price_goes_remote cache now remote a o p
            (by
              intro e2 he2
              rw [hcg] at he2
              obtain rfl := Option.some.inj he2
              exact hfresh)]
          exact floorRemote_ok cache now remote (a, o, p)

/-- C10 witness: a fresh priceless entry errors; on a cache whose entries all
carry price fields, get returns normally. -/
theorem fresh_entry_missing_price_errors_witness :
    (get_floor_price [((24, 66, "ST"), ⟨none, some 0⟩)] 0 .exn
        (some 24) (some 66) (some "ST")).ret = .error ()
    ∧ ∃ v, (get_floor_price [] 0 .exn (some 24) (some 66) (some "ST")).ret
        = .ok v :=
  ⟨(fresh_entry_missing_price_errors [((24, 66, "ST"), ⟨none, some 0⟩)] 0 .exn).1
      24 66 "ST" ⟨none, some 0⟩ (by simp [cacheGet])
      (by norm_num [CACHE_EXPIRY_SECONDS]) rfl,
   (fresh_entry_missing_price_errors [] 0 .exn).2
      (by intro k e he; simp [cacheGet] at he)
      (some 24) (some 66) (some "ST")⟩

end MflData
